import Mathlib

/-!
Verification development for the RustPad synchronization engine.

Text is modelled as its UTF-8 byte sequence (`List Nat`): the diff engine in
`src/rustpad/src/editor/diff_engine.rs` compares and slices the inputs byte by
byte, so byte lists are the faithful carrier for its semantics.
-/

namespace RustPad

/-- One edit operation, embedding `DiffOperation` from
`src/rustpad/src/editor/diff_engine.rs`: `Insert(pos, text)`,
`Delete(start, end)` (range `[start, end)`), `Replace(start, end, text)`. -/
inductive DiffOperation where
  | Insert : Nat → List Nat → DiffOperation
  | Delete : Nat → Nat → DiffOperation
  | Replace : Nat → Nat → List Nat → DiffOperation
deriving DecidableEq, Repr

/-- Embeds `DiffEngine::find_common_prefix`: the Rust loop returns the first
index at which the two byte strings differ, or the shorter length when one is
a prefix of the other; that value is exactly the length of the longest common
leading run computed by this recursion. -/
def findCommonLead : List Nat → List Nat → Nat
  | a :: as, b :: bs => if a = b then findCommonLead as bs + 1 else 0
  | _, _ => 0

/-- Embeds `DiffEngine::find_common_suffix`: the Rust loop compares bytes from
the two ends (`old[old_len-1-i]` versus `new[new_len-1-i]`, i.e. the reversed
strings position by position) and stops at the first mismatch or at
`min(old_len, new_len) - common_prefix`, whichever comes first. -/
def findCommonTrail (oldText newText : List Nat) (p : Nat) : Nat :=
  min (findCommonLead oldText.reverse newText.reverse)
      (min oldText.length newText.length - p)

/-- Embeds `DiffEngine::diff`. `oldMiddle`/`newMiddle` are the byte slices
`old_text[p .. old_len - s]` and `new_text[p .. new_len - s]`; the four-way
policy (insert / delete / replace / nothing) mirrors the `if` chain of the
source. -/
def diff (oldText newText : List Nat) : List DiffOperation :=
  let p := findCommonLead oldText newText
  let s := findCommonTrail oldText newText p
  let oldMiddle := (oldText.drop p).take (oldText.length - s - p)
  let newMiddle := (newText.drop p).take (newText.length - s - p)
  if oldMiddle = [] ∧ ¬newMiddle = [] then
    [DiffOperation.Insert p newMiddle]
  else if ¬oldMiddle = [] ∧ newMiddle = [] then
    [DiffOperation.Delete p (p + oldMiddle.length)]
  else if ¬oldMiddle = [] ∧ ¬newMiddle = [] ∧ ¬oldMiddle = newMiddle then
    [DiffOperation.Replace p (p + oldMiddle.length) newMiddle]
  else
    []

/-- Modelled from the spec: the repository has no applier for the
`DiffEngine` operation type (`utils/diff_util.rs` applies a different,
line-based operation type), so `apply` follows the spec's words: `Insert(pos,
t)` inserts `t` at byte offset `pos`, `Delete(start, end)` removes the byte
range `[start, end)`, and `Replace(start, end, t)` replaces the byte range
`[start, end)` with `t`. -/
def applyOp (text : List Nat) : DiffOperation → List Nat
  | DiffOperation.Insert pos t => text.take pos ++ t ++ text.drop pos
  | DiffOperation.Delete start stop => text.take start ++ text.drop stop
  | DiffOperation.Replace start stop t => text.take start ++ t ++ text.drop stop

/-- Modelled from the spec: apply a whole operation list left to right. -/
def applyOps (text : List Nat) (ops : List DiffOperation) : List Nat :=
  ops.foldl applyOp text

/-- Rust's `str::is_char_boundary` over the UTF-8 byte sequence: index 0 and
the end are boundaries, and an interior index is a boundary exactly when the
byte there is not a continuation byte (`0x80..0xBF`). -/
def isCharBoundary (l : List Nat) (i : Nat) : Bool :=
  if i = 0 then true
  else
    match l.get? i with
    | some b => decide (b < 128) || decide (192 ≤ b)
    | none => decide (i = l.length)

/-- `DiffEngine::diff` slices `old_text` at byte range `[p, old_len - s)` and
`new_text` at `[p, new_len - s)`. In Rust, slicing a `&str` panics unless both
range endpoints are char boundaries; this predicate is true exactly when one
of the four slice endpoints falls inside a multi-byte character, i.e. when
`diff` reaches the panic branch of string slicing. -/
def diffPanics (oldText newText : List Nat) : Bool :=
  let p := findCommonLead oldText newText
  let s := findCommonTrail oldText newText p
  !(isCharBoundary oldText p && isCharBoundary oldText (oldText.length - s) &&
    isCharBoundary newText p && isCharBoundary newText (newText.length - s))

/-- Whether a continuation byte (`0x80..0xBF`). -/
def isContByte (b : Nat) : Bool :=
  decide (128 ≤ b) && decide (b < 192)

/-- Standard UTF-8 well-formedness of a byte sequence (RFC 3629 table:
correct continuation counts and ranges, no overlong forms, no surrogates,
nothing above U+10FFFF). Used to express the spec's phrase "well-formed text
inputs" over the byte-sequence model. -/
def validUtf8 : List Nat → Bool
  | [] => true
  | b :: rest =>
      if b < 128 then validUtf8 rest
      else if 194 ≤ b ∧ b ≤ 223 then
        match rest with
        | c :: r => isContByte c && validUtf8 r
        | [] => false
      else if b = 224 then
        match rest with
        | c :: d :: r => (decide (160 ≤ c) && decide (c < 192)) && isContByte d && validUtf8 r
        | _ => false
      else if 225 ≤ b ∧ b ≤ 236 then
        match rest with
        | c :: d :: r => isContByte c && isContByte d && validUtf8 r
        | _ => false
      else if b = 237 then
        match rest with
        | c :: d :: r => (decide (128 ≤ c) && decide (c < 160)) && isContByte d && validUtf8 r
        | _ => false
      else if 238 ≤ b ∧ b ≤ 239 then
        match rest with
        | c :: d :: r => isContByte c && isContByte d && validUtf8 r
        | _ => false
      else if b = 240 then
        match rest with
        | c :: d :: e :: r =>
            (decide (144 ≤ c) && decide (c < 192)) && isContByte d && isContByte e && validUtf8 r
        | _ => false
      else if 241 ≤ b ∧ b ≤ 243 then
        match rest with
        | c :: d :: e :: r => isContByte c && isContByte d && isContByte e && validUtf8 r
        | _ => false
      else if b = 244 then
        match rest with
        | c :: d :: e :: r =>
            (decide (128 ≤ c) && decide (c < 144)) && isContByte d && isContByte e && validUtf8 r
        | _ => false
      else false

/-- Embeds `EditorState` from `src/rustpad/src/editor/state.rs`; the text is
its byte sequence, offsets are byte offsets. -/
structure EditorState where
  text : List Nat
  cursor_position : Nat
  selection_start : Option Nat
  selection_end : Option Nat
deriving DecidableEq, Repr

/-- Embeds `EditorState::new`. -/
def EditorState.new : EditorState :=
  { text := [], cursor_position := 0, selection_start := none, selection_end := none }

/-- Embeds `EditorState::insert_text`: `insert_str` at the cursor, then the
cursor advances by the inserted length. (For a cursor beyond the end of the
text Rust's `insert_str` would panic; at or below the length — the situation
the state invariant claims — this take/drop form is exact.) -/
def insertText (s : EditorState) (t : List Nat) : EditorState :=
  { s with
    text := s.text.take s.cursor_position ++ t ++ s.text.drop s.cursor_position,
    cursor_position := s.cursor_position + t.length }

/-- Embeds `EditorState::delete_text`: the mutation is guarded by
`start < end && end <= text.len()`; outside the guard the call does nothing
and returns unit. -/
def deleteText (s : EditorState) (start stop : Nat) : EditorState :=
  if start < stop ∧ stop ≤ s.text.length then
    { s with text := s.text.take start ++ s.text.drop stop, cursor_position := start }
  else s

/-- Embeds `EditorState::move_cursor`: the position is clamped to the text
length. -/
def moveCursor (s : EditorState) (position : Nat) : EditorState :=
  { s with cursor_position := min position s.text.length }

/-- Embeds `EditorState::set_selection`: each endpoint is clamped to the text
length independently; the pair is never reordered. -/
def setSelection (s : EditorState) (start stop : Nat) : EditorState :=
  { s with
    selection_start := some (min start s.text.length),
    selection_end := some (min stop s.text.length) }

/-- Embeds `EditorState::clear_selection`. -/
def clearSelection (s : EditorState) : EditorState :=
  { s with selection_start := none, selection_end := none }

/-- Embeds `EditorState::replace_text`: full-text replacement, cursor to the
end, selection cleared. -/
def replaceText (s : EditorState) (t : List Nat) : EditorState :=
  clearSelection { s with text := t, cursor_position := t.length }

/-- Embeds `EditorState::apply_sync`: `replace_range(start..end, new_text)`
then the cursor moves to `start + new_text.len()`. Rust's `replace_range`
panics when `start > end` or `end > text.len()` (and on non-boundary indices
of multi-byte characters, invisible at the byte level); `none` models that
panic. -/
def applySync (s : EditorState) (start stop : Nat) (t : List Nat) : Option EditorState :=
  if start ≤ stop ∧ stop ≤ s.text.length then
    some { s with
           text := s.text.take start ++ t ++ s.text.drop stop,
           cursor_position := start + t.length }
  else none

/-- The state `text = "abc"`, cursor at 0, no selection. -/
def stateAbc : EditorState :=
  { text := [97, 98, 99], cursor_position := 0, selection_start := none,
    selection_end := none }

/-- The claimed `EditorState` invariant:
`0 ≤ cursor ≤ len(text)`, and whenever a selection exists,
`0 ≤ start ≤ end ≤ len(text)`. -/
def stateInv (s : EditorState) : Bool :=
  decide (s.cursor_position ≤ s.text.length) &&
  (match s.selection_start, s.selection_end with
   | some a, some b => decide (a ≤ b) && decide (b ≤ s.text.length)
   | _, _ => true)

/-- The cursor half of the invariant. -/
abbrev cursorInv (s : EditorState) : Prop :=
  s.cursor_position ≤ s.text.length

/-- Embeds `VersionControl` from `src/rustpad/src/editor/version_control.rs`.
The two `VecDeque`s are modelled as lists whose head is the deque front and
whose last element is the deque back. -/
structure VersionControl where
  undo_stack : List EditorState
  redo_stack : List EditorState
  max_history : Nat
deriving DecidableEq, Repr

/-- Embeds `VersionControl::new` (default history limit 100). -/
def VersionControl.new : VersionControl :=
  { undo_stack := [], redo_stack := [], max_history := 100 }

/-- Embeds `VersionControl::track_change`: when the undo stack is exactly at
`max_history` the front (oldest) entry is popped, the new state is pushed at
the back, and the redo stack is cleared. -/
def VersionControl.track_change (vc : VersionControl) (state : EditorState) : VersionControl :=
  let u := if vc.undo_stack.length = vc.max_history then vc.undo_stack.tail
           else vc.undo_stack
  { vc with undo_stack := u ++ [state], redo_stack := [] }

/-- Embeds `VersionControl::undo`: pop the back of the undo stack; when it was
non-empty, push `current` onto the back of the redo stack and return the
popped snapshot, otherwise return `none` and change nothing. -/
def VersionControl.undo (vc : VersionControl) (current : EditorState) :
    VersionControl × Option EditorState :=
  match vc.undo_stack.getLast? with
  | some previous =>
      ({ vc with undo_stack := vc.undo_stack.dropLast,
                 redo_stack := vc.redo_stack ++ [current] }, some previous)
  | none => (vc, none)

/-- Embeds `VersionControl::redo`: symmetric to `undo` against the redo
stack. -/
def VersionControl.redo (vc : VersionControl) (current : EditorState) :
    VersionControl × Option EditorState :=
  match vc.redo_stack.getLast? with
  | some next =>
      ({ vc with redo_stack := vc.redo_stack.dropLast,
                 undo_stack := vc.undo_stack ++ [current] }, some next)
  | none => (vc, none)

/-- Embeds `VersionControl::set_max_history`: sets the limit only, without
trimming either stack. -/
def VersionControl.set_max_history (vc : VersionControl) (n : Nat) : VersionControl :=
  { vc with max_history := n }

/-- Embeds `VersionControl::clear_history`. -/
def VersionControl.clear_history (vc : VersionControl) : VersionControl :=
  { vc with undo_stack := [], redo_stack := [] }

/-- Editor state with text `"a"`, as left by typing (cursor at the end). -/
def stA : EditorState :=
  { text := [97], cursor_position := 1, selection_start := none, selection_end := none }

/-- Editor state with text `"ab"`. -/
def stAB : EditorState :=
  { text := [97, 98], cursor_position := 2, selection_start := none, selection_end := none }

/-- Editor state with text `"abc"`. -/
def stABC : EditorState :=
  { text := [97, 98, 99], cursor_position := 3, selection_start := none,
    selection_end := none }

/-- The manager after tracking `"a"`, `"ab"`, `"abc"` on a fresh instance. -/
def vcTracked : VersionControl :=
  ((VersionControl.new.track_change stA).track_change stAB).track_change stABC

/-- First undo call of the claimed trace, with current state `"abc"`. -/
def vcUndo1 : VersionControl × Option EditorState := vcTracked.undo stABC

/-- Current state after the first undo (the returned snapshot). -/
def vcCur1 : EditorState := vcUndo1.2.getD stABC

/-- Second undo call. -/
def vcUndo2 : VersionControl × Option EditorState := vcUndo1.1.undo vcCur1

/-- Current state after the second undo. -/
def vcCur2 : EditorState := vcUndo2.2.getD vcCur1

/-- The redo call. -/
def vcRedo1 : VersionControl × Option EditorState := vcUndo2.1.redo vcCur2

/-- Current state after the redo. -/
def vcFinal : EditorState := vcRedo1.2.getD vcCur2

/-- Manager states reachable from `VersionControl::new` by `track_change`,
`undo`, `redo` and `clear_history`. -/
inductive VCReachable : VersionControl → Prop where
  | new : VCReachable VersionControl.new
  | track {vc : VersionControl} (s : EditorState) :
      VCReachable vc → VCReachable (vc.track_change s)
  | undo {vc : VersionControl} (c : EditorState) :
      VCReachable vc → VCReachable (vc.undo c).1
  | redo {vc : VersionControl} (c : EditorState) :
      VCReachable vc → VCReachable (vc.redo c).1
  | clear {vc : VersionControl} :
      VCReachable vc → VCReachable vc.clear_history

/-- Manager states reachable when `set_max_history` is also allowed, the
operation set the claim quantifies over. -/
inductive VCReachableAdmin : VersionControl → Prop where
  | new : VCReachableAdmin VersionControl.new
  | track {vc : VersionControl} (s : EditorState) :
      VCReachableAdmin vc → VCReachableAdmin (vc.track_change s)
  | undo {vc : VersionControl} (c : EditorState) :
      VCReachableAdmin vc → VCReachableAdmin (vc.undo c).1
  | redo {vc : VersionControl} (c : EditorState) :
      VCReachableAdmin vc → VCReachableAdmin (vc.redo c).1
  | clear {vc : VersionControl} :
      VCReachableAdmin vc → VCReachableAdmin vc.clear_history
  | setMax {vc : VersionControl} (n : Nat) :
      VCReachableAdmin vc → VCReachableAdmin (vc.set_max_history n)

/-- After two tracked changes, lowering the limit to 1 without trimming. -/
def vcOverCap : VersionControl :=
  ((VersionControl.new.track_change stA).track_change stAB).set_max_history 1

/-- A manager at capacity 1 holding the snapshot `"a"`. -/
def vcAtCap : VersionControl := { undo_stack := [stA], redo_stack := [], max_history := 1 }

/-- Embeds `FileChange` from `src/rustpad/src/networking/sync.rs`. -/
structure FileChange where
  file_name : String
  content : String
  user : String
  timestamp : String
deriving DecidableEq, Repr

/-- What one iteration of the receive loop in `SyncManager::register_client`
does with an inbound frame. -/
inductive HandlerOutcome where
  | applied : FileChange → HandlerOutcome
  | panicked : HandlerOutcome
  | skipped : HandlerOutcome
deriving DecidableEq, Repr

/-- Embeds the message-handling step of `SyncManager::register_client`
(`src/rustpad/src/networking/sync.rs`, receive loop): for a text frame the
code runs `serde_json::from_str::<FileChange>(...).unwrap()` — a successful
parse (`some`) is applied and broadcast, while a parse failure (`none`, any
malformed message) is unwrapped and panics, aborting the connection task;
non-text frames are skipped. The same unwrap-on-parse pattern appears in
`CollaborationManager::register_client`. -/
def handleSyncMessage (isText : Bool) (decoded : Option FileChange) : HandlerOutcome :=
  if isText then
    match decoded with
    | some fc => HandlerOutcome.applied fc
    | none => HandlerOutcome.panicked
  else HandlerOutcome.skipped

/-- An unbounded mpsc sender; a send fails exactly when the receiving half
has been dropped (the channel is closed). -/
structure MpscSender where
  closed : Bool
deriving DecidableEq, Repr

/-- Embeds `Client` from `src/rustpad/src/client.rs`: id, username, and an
optional WebSocket sender (`disconnect` sets it to `None`). -/
structure Client where
  id : String
  username : String
  sender : Option MpscSender
deriving DecidableEq, Repr

/-- Embeds `broadcast_message` from `src/rustpad/src/client.rs`: iterate over
every registered client; for each client that still has a sender, attempt to
enqueue the message; a failed send is only logged and the loop continues.
There is no excluded-sender parameter. Returns the ids whose channel accepted
the message. -/
def broadcastDelivered (clients : List (String × Client)) (message : String) :
    List String :=
  clients.filterMap (fun entry =>
    match entry.2.sender with
    | some ch => if ch.closed then none else some entry.1
    | none => none)

/-- Embeds `PeerConnection` from
`src/rustpad/src/networking/connection_manager.rs`. -/
structure PeerConnection where
  sender : MpscSender
deriving DecidableEq, Repr

/-- Embeds `ConnectionManager::broadcast_message`: iterate over the peer map
and send to every peer whose address differs from `sender_addr` (send results
are discarded). Peer addresses are modelled as naturals; returns the
addresses to which a send is attempted. -/
def cmBroadcastTargets (peers : List (Nat × PeerConnection)) (senderAddr : Nat) :
    List Nat :=
  (peers.filter (fun entry => entry.1 ≠ senderAddr)).map (fun entry => entry.1)

/-- Registered client `A` with an open channel. -/
def clientA : Client := { id := "A", username := "alice", sender := some { closed := false } }

/-- Registered client `B` whose outbound channel is closed. -/
def clientB : Client := { id := "B", username := "bob", sender := some { closed := true } }

/-- Registered client `C` with an open channel. -/
def clientC : Client := { id := "C", username := "carol", sender := some { closed := false } }

/-- The registry `{A, B, C}`. -/
def regABC : List (String × Client) := [("A", clientA), ("B", clientB), ("C", clientC)]

/-- A registered peer connection. -/
def peerTwo : PeerConnection := { sender := { closed := false } }

/-- A two-peer map with addresses 1 and 2. -/
def cmPeers : List (Nat × PeerConnection) :=
  [(1, { sender := { closed := false } }), (2, peerTwo)]

/-- Embeds `DocumentUpdate` from `src/rustpad/src/document.rs`. -/
structure DocumentUpdate where
  content : String
  user : String
  timestamp : String
deriving DecidableEq, Repr

/-- Embeds `Document` from `src/rustpad/src/document.rs`. -/
structure Document where
  content : String
  history : List DocumentUpdate
deriving DecidableEq, Repr

/-- Embeds `Document::new`. -/
def Document.new : Document := { content := "", history := [] }

/-- Embeds `Document::apply_update`: push the update onto history and
overwrite the content with the update's content. -/
def Document.apply_update (d : Document) (u : DocumentUpdate) : Document :=
  { content := u.content, history := d.history ++ [u] }

/-- Embeds `Document::undo_last_update`: with more than one history entry,
pop the latest and restore content from the new tail (the source unwraps
`history.last()`, which cannot fail there since a list of length at least two
keeps at least one element after a pop — the unreachable arm returns the
document unchanged); otherwise return `none` and change nothing. -/
def Document.undo_last_update (d : Document) : Document × Option DocumentUpdate :=
  if 1 < d.history.length then
    match d.history.dropLast.getLast? with
    | some u => ({ content := u.content, history := d.history.dropLast }, some u)
    | none => (d, none)
  else (d, none)

/-- Embeds `Document::redo_update`: delegates to `apply_update`. -/
def Document.redo_update (d : Document) (u : DocumentUpdate) : Document :=
  d.apply_update u

/-- Content/history coherence: the content equals the content of the last
history entry, or is empty when the history is. -/
def Coherent (d : Document) : Prop :=
  match d.history.getLast? with
  | some u => d.content = u.content
  | none => d.content = ""

/-- Documents reachable from `Document::new` by `apply_update`,
`redo_update` and `undo_last_update`. -/
inductive DocReachable : Document → Prop where
  | new : DocReachable Document.new
  | apply {d : Document} (u : DocumentUpdate) :
      DocReachable d → DocReachable (d.apply_update u)
  | redo {d : Document} (u : DocumentUpdate) :
      DocReachable d → DocReachable (d.redo_update u)
  | undo {d : Document} :
      DocReachable d → DocReachable d.undo_last_update.1

-- Spec §8 golden tests for the diff engine over the byte model
-- ("hello"/"hello world", "cat"/"dog", a trailing deletion, identity).
example : diff [104, 101] [104, 101] = [] := by decide

example : diff [104, 101, 108, 108, 111]
               [104, 101, 108, 108, 111, 32, 119] =
    [DiffOperation.Insert 5 [32, 119]] := by decide

example : diff [99, 97, 116] [100, 111, 103] =
    [DiffOperation.Replace 0 3 [100, 111, 103]] := by decide

example : diff [104, 105, 33] [104, 105] = [DiffOperation.Delete 2 3] := by decide

example : applyOps [99, 97, 116] (diff [99, 97, 116] [100, 111, 103]) =
    [100, 111, 103] := by decide

/-- The common-lead length never exceeds the first argument's length. -/
theorem lead_le_left (a : List Nat) : ∀ b : List Nat, findCommonLead a b ≤ a.length := by
  induction a with
  | nil => intro b; cases b <;> simp [findCommonLead]
  | cons x as ih =>
      intro b
      cases b with
      | nil => simp [findCommonLead]
      | cons y bs =>
          by_cases h : x = y
          · simp only [findCommonLead, if_pos h, List.length_cons]
            exact Nat.succ_le_succ (ih bs)
          · simp [findCommonLead, h]

/-- The common-lead length never exceeds the second argument's length. -/
theorem lead_le_right (a : List Nat) : ∀ b : List Nat, findCommonLead a b ≤ b.length := by
  induction a with
  | nil => intro b; cases b <;> simp [findCommonLead]
  | cons x as ih =>
      intro b
      cases b with
      | nil => simp [findCommonLead]
      | cons y bs =>
          by_cases h : x = y
          · simp only [findCommonLead, if_pos h, List.length_cons]
            exact Nat.succ_le_succ (ih bs)
          · simp [findCommonLead, h]

/-- Up to the common-lead length, the two lists agree. -/
theorem take_eq_of_le_lead (a : List Nat) :
    ∀ (b : List Nat) (k : Nat), k ≤ findCommonLead a b → a.take k = b.take k := by
  induction a with
  | nil =>
      intro b k hk
      cases b <;> simp [findCommonLead] at hk <;> simp [hk]
  | cons x as ih =>
      intro b k hk
      cases b with
      | nil => simp [findCommonLead] at hk; simp [hk]
      | cons y bs =>
          by_cases h : x = y
          · cases k with
            | zero => simp
            | succ k =>
                simp only [findCommonLead, if_pos h] at hk
                simp only [List.take_succ_cons, h]
                rw [ih bs k (Nat.le_of_succ_le_succ hk)]
          · simp [findCommonLead, h] at hk
            simp [hk]

/-- Lists agreeing on the lead of their reversals agree on their last `s`
elements. -/
theorem drop_sub_eq_of_le_leadRev (a b : List Nat) (s : Nat)
    (h : s ≤ findCommonLead a.reverse b.reverse) :
    a.drop (a.length - s) = b.drop (b.length - s) := by
  have h1 : a.reverse.take s = b.reverse.take s := take_eq_of_le_lead _ _ s h
  have h2 : a.drop (a.length - s) = (a.reverse.take s).reverse := by
    rw [List.take_reverse, List.reverse_reverse]
  have h3 : b.drop (b.length - s) = (b.reverse.take s).reverse := by
    rw [List.take_reverse, List.reverse_reverse]
  rw [h2, h3, h1]

/-- Every list splits into the lead of length `p`, the middle slice
`[p, length - s)`, and the trail of length `s`. -/
theorem middle_decomp (l : List Nat) (p s : Nat) (h : p + s ≤ l.length) :
    l = l.take p ++ ((l.drop p).take (l.length - s - p) ++ l.drop (l.length - s)) := by
  conv_lhs => rw [← List.take_append_drop p l]
  congr 1
  conv_lhs => rw [← List.take_append_drop (l.length - s - p) (l.drop p)]
  congr 1
  rw [List.drop_drop]
  congr 1
  omega

/-- Core of the round-trip argument, stated over an arbitrary split point `p`
and trail length `s` satisfying the properties the diff engine establishes. -/
theorem roundtrip_core (oldT newT : List Nat) (p s : Nat)
    (hso : p + s ≤ oldT.length) (hsn : p + s ≤ newT.length)
    (htake : oldT.take p = newT.take p)
    (hdrop : oldT.drop (oldT.length - s) = newT.drop (newT.length - s)) :
    applyOps oldT
      (if (oldT.drop p).take (oldT.length - s - p) = [] ∧
          ¬(newT.drop p).take (newT.length - s - p) = [] then
        [DiffOperation.Insert p ((newT.drop p).take (newT.length - s - p))]
      else if ¬(oldT.drop p).take (oldT.length - s - p) = [] ∧
          (newT.drop p).take (newT.length - s - p) = [] then
        [DiffOperation.Delete p (p + ((oldT.drop p).take (oldT.length - s - p)).length)]
      else if ¬(oldT.drop p).take (oldT.length - s - p) = [] ∧
          ¬(newT.drop p).take (newT.length - s - p) = [] ∧
          ¬(oldT.drop p).take (oldT.length - s - p) =
            (newT.drop p).take (newT.length - s - p) then
        [DiffOperation.Replace p (p + ((oldT.drop p).take (oldT.length - s - p)).length)
          ((newT.drop p).take (newT.length - s - p))]
      else []) = newT := by
  have hOMlen : ((oldT.drop p).take (oldT.length - s - p)).length = oldT.length - s - p := by
    rw [List.length_take, List.length_drop]; omega
  have hOdec := middle_decomp oldT p s hso
  have hNdec := middle_decomp newT p s hsn
  split_ifs with h1 h2 h3
  · -- Insert branch: the old middle is empty, so the old trail starts at `p`.
    have h5 : oldT.length - s - p = 0 := by
      have h6 := congrArg List.length h1.1
      rw [hOMlen] at h6
      simpa using h6
    have h4 : oldT.drop p = newT.drop (newT.length - s) := by
      rw [← hdrop]; congr 1; omega
    simp only [applyOps, List.foldl_cons, List.foldl_nil, applyOp]
    rw [htake, h4, List.append_assoc]
    exact hNdec.symm
  · -- Delete branch: the new middle is empty.
    simp only [applyOps, List.foldl_cons, List.foldl_nil, applyOp]
    have h4 : p + ((oldT.drop p).take (oldT.length - s - p)).length = oldT.length - s := by
      rw [hOMlen]; omega
    rw [h4, htake, hdrop]
    have h5 : (newT.drop p).take (newT.length - s - p) = [] := h2.2
    conv_rhs => rw [hNdec]
    rw [h5]
    simp
  · -- Replace branch.
    simp only [applyOps, List.foldl_cons, List.foldl_nil, applyOp]
    have h4 : p + ((oldT.drop p).take (oldT.length - s - p)).length = oldT.length - s := by
      rw [hOMlen]; omega
    rw [h4, htake, hdrop, List.append_assoc]
    exact hNdec.symm
  · -- No-op branch: both middles coincide, hence the texts coincide.
    have hmid : (oldT.drop p).take (oldT.length - s - p) =
        (newT.drop p).take (newT.length - s - p) := by
      by_cases hOM : (oldT.drop p).take (oldT.length - s - p) = []
      · have hNM : (newT.drop p).take (newT.length - s - p) = [] := by
          by_contra hc
          exact h1 ⟨hOM, hc⟩
        rw [hOM, hNM]
      · have hNM : ¬(newT.drop p).take (newT.length - s - p) = [] := by
          intro hc
          exact h2 ⟨hOM, hc⟩
        by_contra hc
        exact h3 ⟨hOM, hNM, hc⟩
    simp only [applyOps, List.foldl_nil]
    calc oldT = oldT.take p ++ ((oldT.drop p).take (oldT.length - s - p) ++
            oldT.drop (oldT.length - s)) := hOdec
      _ = newT.take p ++ ((newT.drop p).take (newT.length - s - p) ++
            newT.drop (newT.length - s)) := by rw [htake, hdrop, hmid]
      _ = newT := hNdec.symm

/-- C1: for every pair of byte texts, applying the operation list returned by
`DiffEngine::diff(old, new)` to `old` yields exactly `new`: `apply` is the
exact left inverse of `diff`. -/
theorem diff_roundtrip (oldT newT : List Nat) :
    applyOps oldT (diff oldT newT) = newT := by
  have hp1 := lead_le_left oldT newT
  have hp2 := lead_le_right oldT newT
  have hs1 : findCommonTrail oldT newT (findCommonLead oldT newT) ≤
      findCommonLead oldT.reverse newT.reverse := min_le_left _ _
  have hs2 : findCommonTrail oldT newT (findCommonLead oldT newT) ≤
      min oldT.length newT.length - findCommonLead oldT newT := min_le_right _ _
  have hso : findCommonLead oldT newT +
      findCommonTrail oldT newT (findCommonLead oldT newT) ≤ oldT.length := by omega
  have hsn : findCommonLead oldT newT +
      findCommonTrail oldT newT (findCommonLead oldT newT) ≤ newT.length := by omega
  have htake : oldT.take (findCommonLead oldT newT) =
      newT.take (findCommonLead oldT newT) :=
    take_eq_of_le_lead oldT newT _ le_rfl
  have hdrop : oldT.drop (oldT.length - findCommonTrail oldT newT (findCommonLead oldT newT)) =
      newT.drop (newT.length - findCommonTrail oldT newT (findCommonLead oldT newT)) :=
    drop_sub_eq_of_le_leadRev oldT newT _ hs1
  exact roundtrip_core oldT newT (findCommonLead oldT newT)
    (findCommonTrail oldT newT (findCommonLead oldT newT)) hso hsn htake hdrop

/-- C2: contrary to the claim, `DiffEngine::diff` is not total on well-formed
UTF-8 inputs: on `old = "é"` (bytes `C3 A9`) and `new = "è"` (bytes `C3 A8`),
both valid UTF-8, the computed common prefix is 1 byte, which falls inside
the two-byte characters, so the slice `&old_text[1..2]` panics. -/
theorem diff_panics_on_multibyte :
    validUtf8 [195, 169] = true ∧ validUtf8 [195, 168] = true ∧
    diffPanics [195, 169] [195, 168] = true := by decide

/-- C3 counterexample: on text `"abc"` (length 3) and the out-of-range range
`[1, 5)`, `delete_text` silently ignores the call (the state is returned
unchanged and no error is surfaced), and `apply_sync` panics (modelled as
`none`) instead of surfacing an error result. -/
theorem out_of_range_no_error_surfaced :
    deleteText stateAbc 1 5 = stateAbc ∧ applySync stateAbc 1 5 [100] = none := by
  decide

/-- C3 amended: for every state and every range with `end > len(text)` or
`start > end`, `delete_text` silently ignores the call, leaving the state
unchanged and surfacing nothing, while `apply_sync` panics (`none`) rather
than returning an error value. -/
theorem out_of_range_ignored_or_panic (s : EditorState) (start stop : Nat) (t : List Nat)
    (h : s.text.length < stop ∨ stop < start) :
    deleteText s start stop = s ∧ applySync s start stop t = none := by
  constructor
  · unfold deleteText
    rw [if_neg]
    omega
  · unfold applySync
    rw [if_neg]
    omega

/-- C3 amended, witness at the concrete inputs of the counterexample. -/
theorem out_of_range_ignored_or_panic_witness :
    (stateAbc.text.length < 5 ∨ 5 < 1) ∧
    (deleteText stateAbc 1 5 = stateAbc ∧ applySync stateAbc 1 5 [100] = none) :=
  ⟨by decide, out_of_range_ignored_or_panic stateAbc 1 5 [100] (by decide)⟩

/-- C9 counterexample: `set_selection(2, 1)` on the invariant-satisfying state
with text `"abc"` clamps each endpoint but never orders them, producing a
selection with `start = 2 > end = 1`: the claimed invariant is not preserved. -/
theorem set_selection_breaks_invariant :
    stateInv stateAbc = true ∧ stateInv (setSelection stateAbc 2 1) = false := by
  decide

/-- C9 amended: every `EditorState` operation preserves the cursor half of the
invariant, `0 ≤ cursor ≤ len(text)` (for `apply_sync`, whenever it returns at
all instead of panicking); the selection half is not preserved, since
`set_selection` does not order its endpoints and `delete_text`/`apply_sync`
leave a stale selection behind. -/
theorem ops_preserve_cursor_inv (s : EditorState) (hs : cursorInv s) :
    (∀ t, cursorInv (insertText s t)) ∧
    (∀ start stop, cursorInv (deleteText s start stop)) ∧
    (∀ position, cursorInv (moveCursor s position)) ∧
    (∀ start stop, cursorInv (setSelection s start stop)) ∧
    cursorInv (clearSelection s) ∧
    (∀ t, cursorInv (replaceText s t)) ∧
    (∀ start stop t s2, applySync s start stop t = some s2 → cursorInv s2) := by
  unfold cursorInv at hs
  refine ⟨?_, ?_, ?_, ?_, ?_, ?_, ?_⟩
  · intro t
    simp only [cursorInv, insertText, List.length_append, List.length_take,
      List.length_drop]
    omega
  · intro start stop
    unfold cursorInv deleteText
    split
    · next h =>
        simp only [List.length_append, List.length_take, List.length_drop]
        omega
    · exact hs
  · intro position
    simp only [cursorInv, moveCursor]
    omega
  · intro start stop
    exact hs
  · exact hs
  · intro t
    simp [cursorInv, replaceText, clearSelection]
  · intro start stop t s2 h
    unfold applySync at h
    split at h
    · next hr =>
        cases h
        simp only [cursorInv, List.length_append, List.length_take, List.length_drop]
        omega
    · cases h

/-- C9 amended, witness: the preserved cursor bound evaluated at concrete
inputs on the state with text `"abc"`. -/
theorem ops_preserve_cursor_inv_witness :
    cursorInv stateAbc ∧
    cursorInv (insertText stateAbc [120]) ∧
    cursorInv (deleteText stateAbc 0 2) ∧
    cursorInv (moveCursor stateAbc 7) ∧
    cursorInv (setSelection stateAbc 2 1) ∧
    cursorInv (clearSelection stateAbc) ∧
    cursorInv (replaceText stateAbc [100, 101]) ∧
    cursorInv { text := [120, 98, 99], cursor_position := 1, selection_start := none,
                selection_end := none } :=
  ⟨by decide,
   (ops_preserve_cursor_inv stateAbc (by decide)).1 [120],
   (ops_preserve_cursor_inv stateAbc (by decide)).2.1 0 2,
   (ops_preserve_cursor_inv stateAbc (by decide)).2.2.1 7,
   (ops_preserve_cursor_inv stateAbc (by decide)).2.2.2.1 2 1,
   (ops_preserve_cursor_inv stateAbc (by decide)).2.2.2.2.1,
   (ops_preserve_cursor_inv stateAbc (by decide)).2.2.2.2.2.1 [100, 101],
   (ops_preserve_cursor_inv stateAbc (by decide)).2.2.2.2.2.2 0 1 [120]
     { text := [120, 98, 99], cursor_position := 1, selection_start := none,
       selection_end := none } (by decide)⟩

/-- C7 counterexample: after tracking `"a"`, `"ab"`, `"abc"`, the sequence
undo, undo, redo (threading the returned snapshots as the current state)
ends at `"abc"`, not at `"ab"`: since `track_change` stores the post-change
state, the first undo merely returns the current state again. -/
theorem undo_redo_trace_not_ab : vcFinal = stABC ∧ ¬vcFinal = stAB := by decide

/-- C7 amended: the trace undo, undo, redo after tracking `"a"`, `"ab"`,
`"abc"` restores `"abc"` (the snapshot stack holds the post-change states, so
the first undo returns the current state itself); and undo on an empty undo
stack returns `none` and leaves the manager — both stacks — unchanged. -/
theorem undo_redo_trace (vc : VersionControl) (current : EditorState)
    (h : vc.undo_stack = []) :
    vcFinal = stABC ∧ vc.undo current = (vc, none) := by
  constructor
  · decide
  · unfold VersionControl.undo
    rw [h]
    rfl

/-- C7 amended, witness: the trace result, and the empty-stack undo evaluated
on a fresh manager. -/
theorem undo_redo_trace_witness :
    VersionControl.new.undo_stack = [] ∧
    (vcFinal = stABC ∧ VersionControl.new.undo stA = (VersionControl.new, none)) :=
  ⟨rfl, undo_redo_trace VersionControl.new stA rfl⟩

/-- C8 counterexample: `set_max_history` never trims, so the state reached by
`track_change "a"`, `track_change "ab"`, `set_max_history 1` is reachable by
the claim's operation set yet carries 2 undo entries over a cap of 1. -/
theorem set_max_history_breaks_cap :
    VCReachableAdmin vcOverCap ∧ vcOverCap.max_history < vcOverCap.undo_stack.length :=
  ⟨VCReachableAdmin.setMax 1 (VCReachableAdmin.track stAB
      (VCReachableAdmin.track stA VCReachableAdmin.new)),
   by decide⟩

/-- Combined stack bound: along `track_change`/`undo`/`redo`/`clear_history`
the total number of retained snapshots never exceeds the (positive, constant)
limit. -/
theorem vcReachable_sum_le {vc : VersionControl} (h : VCReachable vc) :
    vc.undo_stack.length + vc.redo_stack.length ≤ vc.max_history ∧
      0 < vc.max_history := by
  induction h with
  | new => exact ⟨by decide, by decide⟩
  | @track w s hw ih =>
      obtain ⟨ih1, ih2⟩ := ih
      refine ⟨?_, ih2⟩
      simp only [VersionControl.track_change, List.length_append, List.length_cons,
        List.length_nil]
      split
      · next hc => simp only [List.length_tail]; omega
      · next hc => omega
  | @undo w c hw ih =>
      obtain ⟨ih1, ih2⟩ := ih
      cases hg : w.undo_stack.getLast? with
      | none =>
          simp only [VersionControl.undo, hg]
          exact ⟨ih1, ih2⟩
      | some prev =>
          have hne : w.undo_stack ≠ [] := by
            intro he
            rw [he] at hg
            cases hg
          have hpos : 0 < w.undo_stack.length := List.length_pos.2 hne
          simp only [VersionControl.undo, hg, List.length_dropLast, List.length_append,
            List.length_cons, List.length_nil]
          omega
  | @redo w c hw ih =>
      obtain ⟨ih1, ih2⟩ := ih
      cases hg : w.redo_stack.getLast? with
      | none =>
          simp only [VersionControl.redo, hg]
          exact ⟨ih1, ih2⟩
      | some next =>
          have hne : w.redo_stack ≠ [] := by
            intro he
            rw [he] at hg
            cases hg
          have hpos : 0 < w.redo_stack.length := List.length_pos.2 hne
          simp only [VersionControl.redo, hg, List.length_dropLast, List.length_append,
            List.length_cons, List.length_nil]
          omega
  | @clear w hw ih =>
      exact ⟨by simp [VersionControl.clear_history], ih.2⟩

/-- C8 amended: as long as `set_max_history` is never invoked (it can lower
the cap below the current stack sizes without trimming), every reachable
manager state keeps both stacks within `max_history`; and a `track_change`
made exactly at capacity evicts the oldest undo entry. -/
theorem vc_stacks_bounded :
    (∀ vc : VersionControl, VCReachable vc →
      vc.undo_stack.length ≤ vc.max_history ∧
        vc.redo_stack.length ≤ vc.max_history) ∧
    (∀ (vc : VersionControl) (s : EditorState),
      vc.undo_stack.length = vc.max_history →
        (vc.track_change s).undo_stack = vc.undo_stack.tail ++ [s]) := by
  constructor
  · intro vc h
    have hs := vcReachable_sum_le h
    omega
  · intro vc s hc
    simp only [VersionControl.track_change, if_pos hc]

/-- C8 amended, witness: the bound evaluated on a concrete reachable state and
the eviction evaluated on a concrete manager at capacity. -/
theorem vc_stacks_bounded_witness :
    ((VersionControl.new.track_change stA).undo_stack.length ≤
        (VersionControl.new.track_change stA).max_history ∧
      (VersionControl.new.track_change stA).redo_stack.length ≤
        (VersionControl.new.track_change stA).max_history) ∧
    (vcAtCap.track_change stAB).undo_stack = vcAtCap.undo_stack.tail ++ [stAB] :=
  ⟨vc_stacks_bounded.1 (VersionControl.new.track_change stA)
      (VCReachable.track stA VCReachable.new),
   vc_stacks_bounded.2 vcAtCap stAB (by decide)⟩

/-- C4 counterexample: a text frame whose payload fails to decode (for
example the raw message `"not json"`) drives the handler into the `unwrap`
panic — the message is not dropped and the connection task does not
continue. -/
theorem malformed_message_panics :
    handleSyncMessage true none = HandlerOutcome.panicked ∧
    ¬handleSyncMessage true none = HandlerOutcome.skipped := by decide

/-- C4 amended: on a text frame the handler panics exactly when decoding
fails, and otherwise applies the decoded change; a malformed message is never
dropped-and-continued. (The panic aborts only that connection's task under
the async runtime, so the process survives, but the connection does not.) -/
theorem malformed_text_never_dropped (decoded : Option FileChange) :
    (handleSyncMessage true decoded = HandlerOutcome.panicked ↔ decoded = none) ∧
    (∀ fc, decoded = some fc → handleSyncMessage true decoded = HandlerOutcome.applied fc) := by
  cases decoded with
  | none => exact ⟨by simp [handleSyncMessage], by intro fc h; cases h⟩
  | some fc =>
      refine ⟨by simp [handleSyncMessage], ?_⟩
      intro fc2 h
      cases h
      simp [handleSyncMessage]

/-- C4 amended, witness at a concrete decoded change. -/
theorem malformed_text_never_dropped_witness :
    handleSyncMessage true (some ⟨"f.txt", "abc", "u", "0"⟩) =
      HandlerOutcome.applied ⟨"f.txt", "abc", "u", "0"⟩ :=
  (malformed_text_never_dropped (some ⟨"f.txt", "abc", "u", "0"⟩)).2
    ⟨"f.txt", "abc", "u", "0"⟩ rfl

/-- C5 counterexample: `client.rs`'s `broadcast_message` takes no excluded
sender: broadcasting a message that originated from connection `A` over the
registry `{A, B, C}` delivers it back to `A`. -/
theorem broadcast_delivers_back_to_sender :
    "A" ∈ broadcastDelivered regABC "hello from A" := by decide

/-- C5 amended: the registry broadcast in `client.rs` accepts no excluded
sender id and enqueues to exactly the registered connections whose channel is
live — including the originator; the exclusion behaviour exists only in
`ConnectionManager::broadcast_message`, which takes the sender's address and
skips exactly that peer. -/
theorem broadcast_exclusion_located :
    (∀ (clients : List (String × Client)) (message : String) (i : String),
      i ∈ broadcastDelivered clients message ↔
        ∃ c : Client, (i, c) ∈ clients ∧
          ∃ ch : MpscSender, c.sender = some ch ∧ ch.closed = false) ∧
    (∀ (peers : List (Nat × PeerConnection)) (senderAddr : Nat),
      senderAddr ∉ cmBroadcastTargets peers senderAddr ∧
      ∀ (a : Nat) (pc : PeerConnection),
        (a, pc) ∈ peers → a ≠ senderAddr → a ∈ cmBroadcastTargets peers senderAddr) := by
  constructor
  · intro clients message i
    unfold broadcastDelivered
    rw [List.mem_filterMap]
    constructor
    · rintro ⟨⟨j, c⟩, hmem, hres⟩
      dsimp at hres
      rcases hsend : c.sender with _ | ch
      · rw [hsend] at hres
        simp at hres
      · rw [hsend] at hres
        rcases hcl : ch.closed
        · simp [hcl] at hres
          subst hres
          exact ⟨c, hmem, ch, hsend, hcl⟩
        · simp [hcl] at hres
    · rintro ⟨c, hmem, ch, hsend, hcl⟩
      refine ⟨(i, c), hmem, ?_⟩
      simp [hsend, hcl]
  · intro peers senderAddr
    constructor
    · intro hmem
      unfold cmBroadcastTargets at hmem
      rw [List.mem_map] at hmem
      rcases hmem with ⟨entry, hentry, heq⟩
      rw [List.mem_filter] at hentry
      rw [heq] at hentry
      simp at hentry
    · intro a pc hmem hne
      unfold cmBroadcastTargets
      rw [List.mem_map]
      refine ⟨(a, pc), ?_, rfl⟩
      rw [List.mem_filter]
      exact ⟨hmem, by simpa using hne⟩

/-- C5 amended, witness: concrete delivery back to the originator `A` in the
registry broadcast, and concrete exclusion of sender address 1 (with delivery
to 2) in the peer broadcast. -/
theorem broadcast_exclusion_located_witness :
    "A" ∈ broadcastDelivered regABC "m" ∧
    1 ∉ cmBroadcastTargets cmPeers 1 ∧
    2 ∈ cmBroadcastTargets cmPeers 1 :=
  ⟨(broadcast_exclusion_located.1 regABC "m" "A").2
      ⟨clientA, by decide, { closed := false }, rfl, rfl⟩,
   (broadcast_exclusion_located.2 cmPeers 1).1,
   (broadcast_exclusion_located.2 cmPeers 1).2 2 peerTwo (by decide) (by decide)⟩

/-- C6: partial-failure isolation of the registry broadcast: every registered
client whose channel is open receives the message, whatever the state of the
other registered connections — one connection's closed channel never aborts
delivery to the rest. -/
theorem broadcast_partial_failure_isolation (clients : List (String × Client))
    (message : String) (i : String) (c : Client) (ch : MpscSender)
    (hmem : (i, c) ∈ clients) (hsend : c.sender = some ch)
    (hopen : ch.closed = false) :
    i ∈ broadcastDelivered clients message := by
  unfold broadcastDelivered
  rw [List.mem_filterMap]
  refine ⟨(i, c), hmem, ?_⟩
  simp [hsend, hopen]

/-- C6 witness: with `{A, B, C}` registered and `B`'s channel closed, `A` and
`C` still receive the message. -/
theorem broadcast_partial_failure_isolation_witness :
    "A" ∈ broadcastDelivered regABC "m2" ∧ "C" ∈ broadcastDelivered regABC "m2" :=
  ⟨broadcast_partial_failure_isolation regABC "m2" "A" clientA { closed := false }
      (by decide) rfl rfl,
   broadcast_partial_failure_isolation regABC "m2" "C" clientC { closed := false }
      (by decide) rfl rfl⟩

/-- C10: every document reachable from `Document::new` by `apply_update`,
`redo_update` and `undo_last_update` keeps its content coherent with its
history: the content is the last history entry's content, or empty when the
history is empty. -/
theorem document_coherent (d : Document) (h : DocReachable d) : Coherent d := by
  induction h with
  | new => rfl
  | @apply w u hw ih =>
      unfold Coherent Document.apply_update
      simp [List.getLast?_append]
  | @redo w u hw ih =>
      unfold Coherent Document.redo_update Document.apply_update
      simp [List.getLast?_append]
  | @undo w hw ih =>
      by_cases hl : 1 < w.history.length
      · have hne : w.history.dropLast ≠ [] := by
          intro he
          have := congrArg List.length he
          rw [List.length_dropLast] at this
          simp at this
          omega
        cases hg : w.history.dropLast.getLast? with
        | none =>
            rw [List.getLast?_eq_none_iff] at hg
            exact absurd hg hne
        | some u =>
            simp only [Document.undo_last_update, if_pos hl, hg]
            unfold Coherent
            simp [hg]
      · simp only [Document.undo_last_update, if_neg hl]
        exact ih

/-- C10 witness: coherence evaluated on a concrete reachable document. -/
theorem document_coherent_witness :
    Coherent (Document.new.apply_update ⟨"abc", "u1", "0"⟩) :=
  document_coherent (Document.new.apply_update ⟨"abc", "u1", "0"⟩)
    (DocReachable.apply ⟨"abc", "u1", "0"⟩ DocReachable.new)

end RustPad
